import Mathlib

/-!
# Verification of the splay-tree cache and the bounded LRU cache

Shallow embedding of the two caching components of the repository:

* `SplayTree` (source: `fibonacci_cache_comparison.py`) — a self-adjusting
  binary search tree with parent pointers.  The imperative tree is modelled
  functionally: a node's position in the tree is a zipper `(focus, SplayPath)`,
  where each `SplayFrame` of the path records whether the focus is the left or the
  right child of its parent, together with the parent's key/value and the
  sibling subtree.  The bottom-up `_splay` loop (zig / zig-zig / zig-zag,
  built from `_rotate_left` / `_rotate_right`) becomes the recursion `splay`;
  each of its equations is exactly the result of the corresponding one or two
  source rotations applied to the reconstructed subtrees.

* `LRUCache` (source: `lru_cache_demo.py`) — an `OrderedDict`-backed cache.
  The `OrderedDict` is modelled as an association list whose head is the
  least-recently-used binding and whose last element is the most-recently-used
  one; `move_to_end`, item assignment and `popitem(last=False)` become the
  list operations `moveToEnd`, `setValue` and `List.tail`.
-/

/-- A binary tree node holds `(key, value)` and two optional children
(`SplayTreeNode`; the parent pointer is represented by `SplayPath` below). -/
inductive SplayTree where
  | nil : SplayTree
  | node (left : SplayTree) (key : Int) (value : Int) (right : SplayTree) : SplayTree
deriving DecidableEq, Repr

/-- Which child of its parent the focused node is. -/
inductive SplayDir where
  | left : SplayDir
  | right : SplayDir
deriving DecidableEq, Repr

/-- One step of the path from a focused node up to the root: the focus is the
`d`-child of a parent with key `k`, value `v` and other child `sib`. -/
structure SplayFrame where
  d : SplayDir
  k : Int
  v : Int
  sib : SplayTree
deriving DecidableEq, Repr

/-- The chain of parent pointers from the focused node to the root,
innermost (immediate parent) first. -/
abbrev SplayPath := List SplayFrame

/-- Rebuild the whole tree from a focused subtree and its path. -/
def plug (t : SplayTree) : SplayPath → SplayTree
  | [] => t
  | ⟨SplayDir.left, k, v, s⟩ :: p => plug (SplayTree.node t k v s) p
  | ⟨SplayDir.right, k, v, s⟩ :: p => plug (SplayTree.node s k v t) p

/-- `SplayTree._splay`: bring the focused node `node l k v r` to the root.
The loop cases mirror the source:
* path `[]` — `x` has no parent, done;
* path `[f]` — zig: parent is the root, one rotation (`_rotate_right` when the
  focus is a left child, `_rotate_left` when it is a right child);
* two frames — zig-zig (same side twice: rotate grandparent then parent) or
  zig-zag (opposite sides: rotate parent then the new parent).
Each right-hand side is the subtree produced by performing those source
rotations on the reconstructed parent/grandparent. -/
def splay (l : SplayTree) (k v : Int) (r : SplayTree) : SplayPath → SplayTree
  | [] => SplayTree.node l k v r
  | [⟨SplayDir.left, pk, pv, ps⟩] =>
      SplayTree.node l k v (SplayTree.node r pk pv ps)
  | [⟨SplayDir.right, pk, pv, ps⟩] =>
      SplayTree.node (SplayTree.node ps pk pv l) k v r
  | ⟨SplayDir.left, pk, pv, ps⟩ :: ⟨SplayDir.left, gk, gv, gs⟩ :: p =>
      splay l k v (SplayTree.node r pk pv (SplayTree.node ps gk gv gs)) p
  | ⟨SplayDir.right, pk, pv, ps⟩ :: ⟨SplayDir.right, gk, gv, gs⟩ :: p =>
      splay (SplayTree.node (SplayTree.node gs gk gv ps) pk pv l) k v r p
  | ⟨SplayDir.left, pk, pv, ps⟩ :: ⟨SplayDir.right, gk, gv, gs⟩ :: p =>
      splay (SplayTree.node gs gk gv l) k v (SplayTree.node r pk pv ps) p
  | ⟨SplayDir.right, pk, pv, ps⟩ :: ⟨SplayDir.left, gk, gv, gs⟩ :: p =>
      splay (SplayTree.node ps pk pv l) k v (SplayTree.node r gk gv gs) p

/-- The descent loop of `SplayTree.search`: walk down comparing keys, keeping
the path (`prev` is recoverable as the parent recorded in the head frame).
On a hit, splay the found node and return its value; on falling off the tree,
splay the last visited node (the parent in the head frame); on an empty search
path the tree was empty and nothing happens. -/
def searchLoop (key : Int) : SplayTree → SplayPath → Option Int × SplayTree
  | SplayTree.nil, [] => (none, SplayTree.nil)
  | SplayTree.nil, ⟨SplayDir.left, k, v, s⟩ :: p => (none, splay SplayTree.nil k v s p)
  | SplayTree.nil, ⟨SplayDir.right, k, v, s⟩ :: p => (none, splay s k v SplayTree.nil p)
  | SplayTree.node l k v r, path =>
      if key = k then (some v, splay l k v r path)
      else if key < k then searchLoop key l (⟨SplayDir.left, k, v, r⟩ :: path)
      else searchLoop key r (⟨SplayDir.right, k, v, l⟩ :: path)

/-- `SplayTree.search`: returns the found value (or `none`) together with the
tree after splaying. -/
def SplayTree.search (t : SplayTree) (key : Int) : Option Int × SplayTree :=
  searchLoop key t []

/-- The descent loop of `SplayTree.insert`: an empty root is replaced by the
new node without splaying; a matching key has its value overwritten and is
splayed; otherwise the new node is attached as the child of the terminal node
reached (on the side of the last comparison) and splayed to the root. -/
def insertLoop (key value : Int) : SplayTree → SplayPath → SplayTree
  | SplayTree.nil, [] => SplayTree.node SplayTree.nil key value SplayTree.nil
  | SplayTree.nil, f :: p => splay SplayTree.nil key value SplayTree.nil (f :: p)
  | SplayTree.node l k v r, path =>
      if key < k then insertLoop key value l (⟨SplayDir.left, k, v, r⟩ :: path)
      else if key > k then insertLoop key value r (⟨SplayDir.right, k, v, l⟩ :: path)
      else splay l k value r path

/-- `SplayTree.insert`. -/
def SplayTree.insert (t : SplayTree) (key value : Int) : SplayTree :=
  insertLoop key value t []

/-- In-order traversal of the tree as a list of `(key, value)` pairs. -/
def inorder : SplayTree → List (Int × Int)
  | SplayTree.nil => []
  | SplayTree.node l k v r => inorder l ++ (k, v) :: inorder r

/-- The keys of the tree in in-order. -/
def keysOf (t : SplayTree) : List Int :=
  (inorder t).map Prod.fst

/-- The key at the root, if any. -/
def rootKey : SplayTree → Option Int
  | SplayTree.nil => none
  | SplayTree.node _ k _ _ => some k

/-- Plain (non-restructuring) binary-search-tree insert-or-update, used as the
functional shadow of `insertLoop` on in-order traversals. -/
def ins (key value : Int) : SplayTree → SplayTree
  | SplayTree.nil => SplayTree.node SplayTree.nil key value SplayTree.nil
  | SplayTree.node l k v r =>
      if key < k then SplayTree.node (ins key value l) k v r
      else if key > k then SplayTree.node l k v (ins key value r)
      else SplayTree.node l k value r

/-- Plain binary-search-tree lookup following the same comparison order as the
source `search` (equality first, then left/right). -/
def treeLookup (key : Int) : SplayTree → Option Int
  | SplayTree.nil => none
  | SplayTree.node l k v r =>
      if key = k then some v
      else if key < k then treeLookup key l
      else treeLookup key r

/-- The binary-search-tree ordering property: at every node, all keys on the
left are smaller and all keys on the right are larger. -/
def BST : SplayTree → Prop
  | SplayTree.nil => True
  | SplayTree.node l k _ r =>
      (∀ x ∈ keysOf l, x < k) ∧ (∀ x ∈ keysOf r, k < x) ∧ BST l ∧ BST r

/-- One operation on a splay cache. -/
inductive Op where
  | ins (k v : Int) : Op
  | search (k : Int) : Op

/-- Apply one operation, keeping only the resulting tree. -/
def applyOp (t : SplayTree) : Op → SplayTree
  | Op.ins k v => t.insert k v
  | Op.search k => (t.search k).2

/-- Apply a sequence of operations from left to right. -/
def applyOps (t : SplayTree) (ops : List Op) : SplayTree :=
  ops.foldl applyOp t

/-- Association-list lookup, modelling `dict` lookup (each key is bound at
most once in any list arising from the cache operations). -/
def alookup {K V : Type} [DecidableEq K] (key : K) : List (K × V) → Option V
  | [] => none
  | kv :: l => if key = kv.1 then some kv.2 else alookup key l

/-- `del cache[k]`: remove the binding of `k` (the first one, which is the
only one when keys are unique). -/
def eraseKey {K V : Type} [DecidableEq K] (k : K) : List (K × V) → List (K × V)
  | [] => []
  | kv :: l => if kv.1 = k then l else kv :: eraseKey k l

/-- `OrderedDict.move_to_end(k)`: move the binding of `k` to the
most-recently-used end, keeping its value.  (The source only calls it on
present keys; on an absent key it is the identity here, where Python would
raise `KeyError`.) -/
def moveToEnd {K V : Type} [DecidableEq K] (k : K) (l : List (K × V)) : List (K × V) :=
  match alookup k l with
  | none => l
  | some v => eraseKey k l ++ [(k, v)]

/-- `self.cache[key] = value` on an `OrderedDict`: overwrite in place if the
key is bound, otherwise append at the most-recently-used end. -/
def setValue {K V : Type} [DecidableEq K] (k : K) (v : V) : List (K × V) → List (K × V)
  | [] => [(k, v)]
  | kv :: l => if kv.1 = k then (k, v) :: l else kv :: setValue k v l

/-- `LRUCache`: capacity plus the `OrderedDict` contents, least-recently-used
binding first. -/
structure LRUCache (K V : Type) where
  capacity : Int
  cache : List (K × V)
deriving Repr

/-- `LRUCache.__init__`: store the capacity (no validation is performed) and
start with an empty dict.  The source default capacity is 1000. -/
def LRUCache.init (K V : Type) (capacity : Int := 1000) : LRUCache K V :=
  { capacity := capacity, cache := [] }

/-- `LRUCache.get`: `None` and no mutation on a miss; on a hit, move the key
to the most-recently-used end and return its value. -/
def LRUCache.get {K V : Type} [DecidableEq K] (c : LRUCache K V) (key : K) :
    Option V × LRUCache K V :=
  match alookup key c.cache with
  | none => (none, c)
  | some v => (some v, { c with cache := moveToEnd key c.cache })

/-- `LRUCache.put`: move an existing key to the end, assign the value, then
evict the least-recently-used binding (`popitem(last=False)`, i.e. the list
head) if the length now exceeds the capacity. -/
def LRUCache.put {K V : Type} [DecidableEq K] (c : LRUCache K V) (key : K) (value : V) :
    LRUCache K V :=
  let l1 := if (alookup key c.cache).isSome then moveToEnd key c.cache else c.cache
  let l2 := setValue key value l1
  { c with cache := if (l2.length : Int) > c.capacity then l2.tail else l2 }

/-- `LRUCache.invalidate`: collect the keys satisfying the condition, then
delete each of them. -/
def LRUCache.invalidate {K V : Type} [DecidableEq K] (c : LRUCache K V)
    (condition_func : K → Bool) : LRUCache K V :=
  let keys_to_remove := (c.cache.map Prod.fst).filter condition_func
  { c with cache := keys_to_remove.foldl (fun l k => eraseKey k l) c.cache }

/-- One operation on an LRU cache. -/
inductive LOp (K V : Type) where
  | get (k : K) : LOp K V
  | put (k : K) (v : V) : LOp K V
  | invalidate (cond : K → Bool) : LOp K V

/-- Apply one LRU operation, keeping only the resulting cache. -/
def applyLOp {K V : Type} [DecidableEq K] (c : LRUCache K V) : LOp K V → LRUCache K V
  | LOp.get k => (c.get k).2
  | LOp.put k v => c.put k v
  | LOp.invalidate cond => c.invalidate cond

/-- Apply a sequence of LRU operations from left to right. -/
def applyLOps {K V : Type} [DecidableEq K] (c : LRUCache K V) (ops : List (LOp K V)) :
    LRUCache K V :=
  ops.foldl applyLOp c

/-- The summation loop `for i in range(L, R+1): total += array[i]` shared by
`range_sum_no_cache` and the miss branch of `range_sum_with_cache` (the source
duplicates it verbatim).  Indices in scope are always in bounds; out-of-range
reads default to 0 where Python would raise. -/
def sumRange (array : List Int) (L R : Nat) : Int :=
  (List.range' L (R + 1 - L)).foldl (fun total i => total + array.getD i 0) 0

/-- `range_sum_no_cache`. -/
def range_sum_no_cache (array : List Int) (L R : Nat) : Int :=
  sumRange array L R

/-- The value the Python caller observes from `cache.get`: `None` both on a
miss and on a hit whose stored value is `None`.  Values of the range-sum cache
are modelled as `Option Int`, `none` standing for Python `None`. -/
def pyValue (res : Option (Option Int)) : Option Int :=
  match res with
  | none => none
  | some v => v

/-- `range_sum_with_cache`: consult the cache for `(L, R)`; on a (non-`None`)
hit return it, otherwise run the summation loop and `put` the total. -/
def range_sum_with_cache (array : List Int) (L R : Nat)
    (cache : LRUCache (Nat × Nat) (Option Int)) :
    Int × LRUCache (Nat × Nat) (Option Int) :=
  let res := cache.get (L, R)
  match pyValue res.1 with
  | some cached_sum => (cached_sum, res.2)
  | none =>
      let total := sumRange array L R
      (total, res.2.put (L, R) (some total))

/-- The predicate built inside `update_with_cache`: does the interval
`(start, end)` contain the updated index? -/
def invalidation_condition (index : Nat) (interval : Nat × Nat) : Bool :=
  decide (interval.1 ≤ index) && decide (index ≤ interval.2)

/-- `update_with_cache`: write the new value into the array, then invalidate
every cached segment containing the index. -/
def update_with_cache (array : List Int) (index : Nat) (value : Int)
    (cache : LRUCache (Nat × Nat) (Option Int)) :
    List Int × LRUCache (Nat × Nat) (Option Int) :=
  (array.set index value, cache.invalidate (invalidation_condition index))

/-- `fibonacci_splay`, instrumented: besides the source's value and the
threaded tree, the third component is a ghost log of every key passed to
`tree.insert`, in call order (the source performs the same inserts without
recording them).  The source guard `n < 2` is expressed by the `0`/`1`
patterns; recursion is on `n` as in the source. -/
def fibonacci_splay : Nat → SplayTree → Int × SplayTree × List Int
  | n, tree =>
    match SplayTree.search tree (n : Int) with
    | (some v, t1) => (v, t1, [])
    | (none, t1) =>
      match n with
      | 0 => (0, t1.insert 0 0, [0])
      | 1 => (1, t1.insert 1 1, [1])
      | m + 2 =>
        let r1 := fibonacci_splay (m + 1) t1
        let r2 := fibonacci_splay m r1.2.1
        let fib_val := r1.1 + r2.1
        (fib_val, r2.2.1.insert ((m : Int) + 2) fib_val, r1.2.2 ++ r2.2.2 ++ [(m : Int) + 2])

/-- `fibonacci_lru` with the `@lru_cache(maxsize=None)` decorator made
explicit: an unbounded memo dict is consulted before the body runs, and every
computed result is stored under its argument.  New bindings are prepended, so
the final dict's keys list every `cache` insertion the decorator performed. -/
def fibonacci_lru : Nat → List (Nat × Nat) → Nat × List (Nat × Nat)
  | n, memo =>
    match alookup n memo with
    | some v => (v, memo)
    | none =>
      match n with
      | 0 => (0, (0, 0) :: memo)
      | 1 => (1, (1, 1) :: memo)
      | m + 2 =>
        let r1 := fibonacci_lru (m + 1) memo
        let r2 := fibonacci_lru m r1.2
        (r1.1 + r2.1, (m + 2, r1.1 + r2.1) :: r2.2)

/-! ## Rotations preserve the in-order traversal -/

theorem inorder_plug_congr (p : SplayPath) : ∀ t1 t2 : SplayTree, inorder t1 = inorder t2 →
    inorder (plug t1 p) = inorder (plug t2 p) := by
  induction p with
  | nil => intro t1 t2 h; simpa [plug] using h
  | cons f p ih =>
    intro t1 t2 h
    cases f with
    | mk d k v s =>
      cases d with
      | left => exact ih _ _ (by simp [inorder, h])
      | right => exact ih _ _ (by simp [inorder, h])

/-- Splaying a focused node performs rotations only: the in-order traversal of
the result is that of the tree the zipper stands for. -/
theorem inorder_splay (l : SplayTree) (k v : Int) (r : SplayTree) (p : SplayPath) :
    inorder (splay l k v r p) = inorder (plug (SplayTree.node l k v r) p) := by
  induction l, k, v, r, p using splay.induct with
  | case1 => simp [splay, plug]
  | case2 => simp [splay, plug, inorder]
  | case3 => simp [splay, plug, inorder]
  | case4 l k v r pk pv ps gk gv gs p ih =>
    rw [splay, ih]
    exact inorder_plug_congr p _ _ (by simp [inorder])
  | case5 l k v r pk pv ps gk gv gs p ih =>
    rw [splay, ih]
    exact inorder_plug_congr p _ _ (by simp [inorder])
  | case6 l k v r pk pv ps gk gv gs p ih =>
    rw [splay, ih]
    exact inorder_plug_congr p _ _ (by simp [inorder])
  | case7 l k v r pk pv ps gk gv gs p ih =>
    rw [splay, ih]
    exact inorder_plug_congr p _ _ (by simp [inorder])

/-- Splaying brings the focused node, with its key and value, to the root. -/
theorem splay_shape (l : SplayTree) (k v : Int) (r : SplayTree) (p : SplayPath) :
    ∃ l' r', splay l k v r p = SplayTree.node l' k v r' := by
  induction l, k, v, r, p using splay.induct with
  | case1 l k v r => exact ⟨l, r, rfl⟩
  | case2 l k v r pk pv ps => exact ⟨l, SplayTree.node r pk pv ps, rfl⟩
  | case3 l k v r pk pv ps => exact ⟨SplayTree.node ps pk pv l, r, rfl⟩
  | case4 l k v r pk pv ps gk gv gs p ih => exact ih
  | case5 l k v r pk pv ps gk gv gs p ih => exact ih
  | case6 l k v r pk pv ps gk gv gs p ih => exact ih
  | case7 l k v r pk pv ps gk gv gs p ih => exact ih

/-! ## The search and insert loops through the zipper -/

/-- The value returned by the search loop is the plain BST lookup of the
focused subtree; the path only determines the final shape. -/
theorem searchLoop_fst (key : Int) (t : SplayTree) :
    ∀ p : SplayPath, (searchLoop key t p).1 = treeLookup key t := by
  induction t with
  | nil =>
    intro p
    match p with
    | [] => rfl
    | ⟨SplayDir.left, k, v, s⟩ :: p => rfl
    | ⟨SplayDir.right, k, v, s⟩ :: p => rfl
  | node l k v r ihl ihr =>
    intro p
    by_cases h1 : key = k
    · simp [searchLoop, treeLookup, h1]
    · by_cases h2 : key < k
      · simpa [searchLoop, treeLookup, h1, h2] using ihl _
      · simpa [searchLoop, treeLookup, h1, h2] using ihr _

/-- The search loop never changes the in-order traversal of the whole tree. -/
theorem inorder_searchLoop (key : Int) (t : SplayTree) :
    ∀ p : SplayPath, inorder (searchLoop key t p).2 = inorder (plug t p) := by
  induction t with
  | nil =>
    intro p
    match p with
    | [] => rfl
    | ⟨SplayDir.left, k, v, s⟩ :: p =>
      simpa [searchLoop, plug] using inorder_splay SplayTree.nil k v s p
    | ⟨SplayDir.right, k, v, s⟩ :: p =>
      simpa [searchLoop, plug] using inorder_splay s k v SplayTree.nil p
  | node l k v r ihl ihr =>
    intro p
    by_cases h1 : key = k
    · simpa [searchLoop, h1] using inorder_splay l k v r p
    · by_cases h2 : key < k
      · simpa [searchLoop, plug, h1, h2] using ihl (⟨SplayDir.left, k, v, r⟩ :: p)
      · simpa [searchLoop, plug, h1, h2] using ihr (⟨SplayDir.right, k, v, l⟩ :: p)

/-- When the search loop finds a value, the found node ends up at the root
with its key and value. -/
theorem searchLoop_found_shape (key : Int) (t : SplayTree) :
    ∀ (p : SplayPath) (v : Int), (searchLoop key t p).1 = some v →
      ∃ l' r', (searchLoop key t p).2 = SplayTree.node l' key v r' := by
  induction t with
  | nil =>
    intro p v h
    exact absurd h (by match p with
      | [] => simp [searchLoop]
      | ⟨SplayDir.left, k, v', s⟩ :: p => simp [searchLoop]
      | ⟨SplayDir.right, k, v', s⟩ :: p => simp [searchLoop])
  | node l k v r ihl ihr =>
    intro p w h
    by_cases h1 : key = k
    · subst h1
      have hv : v = w := by simpa [searchLoop] using h
      subst hv
      simpa [searchLoop] using splay_shape l key v r p
    · by_cases h2 : key < k
      · have h' : (searchLoop key l (⟨SplayDir.left, k, v, r⟩ :: p)).1 = some w := by
          simpa [searchLoop, h1, h2] using h
        simpa [searchLoop, h1, h2] using ihl _ _ h'
      · have h' : (searchLoop key r (⟨SplayDir.right, k, v, l⟩ :: p)).1 = some w := by
          simpa [searchLoop, h1, h2] using h
        simpa [searchLoop, h1, h2] using ihr _ _ h'

/-- The insert loop, seen through in-order traversals, is the plain BST
insert-or-update `ins` applied at the focus. -/
theorem inorder_insertLoop (key value : Int) (t : SplayTree) :
    ∀ p : SplayPath, inorder (insertLoop key value t p) = inorder (plug (ins key value t) p) := by
  induction t with
  | nil =>
    intro p
    match p with
    | [] => rfl
    | f :: p =>
      simpa [insertLoop, ins] using
        inorder_splay SplayTree.nil key value SplayTree.nil (f :: p)
  | node l k v r ihl ihr =>
    intro p
    by_cases h1 : key < k
    · simpa [insertLoop, ins, plug, h1] using ihl (⟨SplayDir.left, k, v, r⟩ :: p)
    · by_cases h2 : key > k
      · simpa [insertLoop, ins, plug, h1, h2] using ihr (⟨SplayDir.right, k, v, l⟩ :: p)
      · have hk : key = k := by omega
        subst hk
        simpa [insertLoop, ins, h1, h2] using inorder_splay l key value r p

/-- After the insert loop the inserted (or updated) key sits at the root with
the new value. -/
theorem insertLoop_shape (key value : Int) (t : SplayTree) :
    ∀ p : SplayPath, ∃ l' r', insertLoop key value t p = SplayTree.node l' key value r' := by
  induction t with
  | nil =>
    intro p
    match p with
    | [] => exact ⟨SplayTree.nil, SplayTree.nil, rfl⟩
    | f :: p =>
      simpa [insertLoop] using splay_shape SplayTree.nil key value SplayTree.nil (f :: p)
  | node l k v r ihl ihr =>
    intro p
    by_cases h1 : key < k
    · simpa [insertLoop, h1] using ihl (⟨SplayDir.left, k, v, r⟩ :: p)
    · by_cases h2 : key > k
      · simpa [insertLoop, h1, h2] using ihr (⟨SplayDir.right, k, v, l⟩ :: p)
      · have hk : key = k := by omega
        subst hk
        simpa [insertLoop, h1, h2] using splay_shape l key value r p

/-! ## The BST ordering property through in-order traversals -/

theorem keysOf_nil : keysOf SplayTree.nil = [] := rfl

theorem keysOf_node (l : SplayTree) (k v : Int) (r : SplayTree) :
    keysOf (SplayTree.node l k v r) = keysOf l ++ k :: keysOf r := by
  simp [keysOf, inorder]

/-- The recursive BST predicate says exactly that the in-order key sequence is
strictly increasing. -/
theorem bst_iff_sorted (t : SplayTree) : BST t ↔ List.Sorted (· < ·) (keysOf t) := by
  induction t with
  | nil => simp [BST, keysOf, inorder]
  | node l k v r ihl ihr =>
    rw [keysOf_node]
    constructor
    · rintro ⟨hl, hr, bl, br⟩
      refine List.pairwise_append.2 ⟨ihl.1 bl, List.pairwise_cons.2 ⟨hr, ihr.1 br⟩, ?_⟩
      intro x hx y hy
      rcases List.mem_cons.1 hy with hy | hy
      · exact hy ▸ hl x hx
      · exact lt_trans (hl x hx) (hr y hy)
    · intro h
      rcases List.pairwise_append.1 h with ⟨ha, hb, hab⟩
      rcases List.pairwise_cons.1 hb with ⟨hr, hb'⟩
      exact ⟨fun x hx => hab x hx k (List.mem_cons_self k _),
        hr, ihl.2 ha, ihr.2 hb'⟩

theorem mem_keysOf_ins (key value : Int) (t : SplayTree) :
    ∀ x ∈ keysOf (ins key value t), x = key ∨ x ∈ keysOf t := by
  induction t with
  | nil => intro x hx; left; simpa [ins, keysOf, inorder] using hx
  | node l k v r ihl ihr =>
    intro x hx
    by_cases h1 : key < k
    · rw [ins] at hx
      simp only [h1, if_true, keysOf_node, List.mem_append, List.mem_cons] at hx
      rcases hx with hx | hx | hx
      · rcases ihl x hx with h | h
        · exact Or.inl h
        · exact Or.inr (by simp [keysOf_node, h])
      · exact Or.inr (by simp [keysOf_node, hx])
      · exact Or.inr (by simp [keysOf_node, hx])
    · by_cases h2 : key > k
      · rw [ins] at hx
        simp only [h1, h2, if_false, if_true, keysOf_node, List.mem_append,
          List.mem_cons] at hx
        rcases hx with hx | hx | hx
        · exact Or.inr (by simp [keysOf_node, hx])
        · exact Or.inr (by simp [keysOf_node, hx])
        · rcases ihr x hx with h | h
          · exact Or.inl h
          · exact Or.inr (by simp [keysOf_node, h])
      · have hk : key = k := by omega
        subst hk
        rw [ins] at hx
        simp only [lt_irrefl, gt_iff_lt, if_false, keysOf_node, List.mem_append,
          List.mem_cons] at hx
        rcases hx with hx | hx | hx
        · exact Or.inr (by simp [keysOf_node, hx])
        · exact Or.inl hx
        · exact Or.inr (by simp [keysOf_node, hx])

/-- Plain BST insert-or-update preserves the ordering property. -/
theorem bst_ins (key value : Int) (t : SplayTree) (h : BST t) : BST (ins key value t) := by
  induction t with
  | nil => exact ⟨by simp [keysOf, inorder], by simp [keysOf, inorder], trivial, trivial⟩
  | node l k v r ihl ihr =>
    rcases h with ⟨hl, hr, bl, br⟩
    by_cases h1 : key < k
    · rw [ins]
      simp only [h1, if_true]
      refine ⟨?_, hr, ihl bl, br⟩
      intro x hx
      rcases mem_keysOf_ins key value l x hx with h | h
      · omega
      · exact hl x h
    · by_cases h2 : key > k
      · rw [ins]
        simp only [h1, h2, if_false, if_true]
        refine ⟨hl, ?_, bl, ihr br⟩
        intro x hx
        rcases mem_keysOf_ins key value r x hx with h | h
        · omega
        · exact hr x h
      · have hk : key = k := by omega
        subst hk
        rw [ins]
        simp only [lt_irrefl, gt_iff_lt, if_false]
        exact ⟨hl, hr, bl, br⟩

/-! ## Association-list lookup lemmas -/

theorem alookup_eq_none {K V : Type} [DecidableEq K] (key : K) (l : List (K × V)) :
    alookup key l = none ↔ key ∉ l.map Prod.fst := by
  induction l with
  | nil => simp [alookup]
  | cons kv l ih =>
    by_cases h : key = kv.1
    · simp [alookup, h]
    · simp [alookup, h, ih]

theorem alookup_isSome {K V : Type} [DecidableEq K] (key : K) (l : List (K × V)) :
    (alookup key l).isSome = true ↔ key ∈ l.map Prod.fst := by
  rcases h : alookup key l with _ | v
  · simpa [h] using (alookup_eq_none key l).1 h
  · have : key ∈ l.map Prod.fst := by
      by_contra hk
      rw [(alookup_eq_none key l).2 hk] at h
      exact Option.noConfusion h
    simpa [h] using this

theorem alookup_append_of_some {K V : Type} [DecidableEq K] (key : K)
    (a b : List (K × V)) (v : V) (h : alookup key a = some v) :
    alookup key (a ++ b) = some v := by
  induction a with
  | nil => exact absurd h (by simp [alookup])
  | cons kv a ih =>
    by_cases hk : key = kv.1
    · rw [alookup, if_pos hk] at h
      rw [List.cons_append, alookup, if_pos hk]
      exact h
    · rw [alookup, if_neg hk] at h
      rw [List.cons_append, alookup, if_neg hk]
      exact ih h

theorem alookup_append_of_none {K V : Type} [DecidableEq K] (key : K)
    (a b : List (K × V)) (h : alookup key a = none) :
    alookup key (a ++ b) = alookup key b := by
  induction a with
  | nil => rfl
  | cons kv a ih =>
    by_cases hk : key = kv.1
    · simp [alookup, hk] at h
    · simp only [alookup, hk, if_false] at h
      simp only [List.cons_append, alookup, hk, if_false]
      exact ih h

/-- Under the BST ordering property, the plain tree lookup is the association
lookup on the in-order traversal. -/
theorem treeLookup_eq_alookup (key : Int) (t : SplayTree) (h : BST t) :
    treeLookup key t = alookup key (inorder t) := by
  induction t with
  | nil => rfl
  | node l k v r ihl ihr =>
    rcases h with ⟨hl, hr, bl, br⟩
    rw [treeLookup, inorder]
    by_cases h1 : key = k
    · subst h1
      have hnone : alookup key (inorder l) = none :=
        (alookup_eq_none key (inorder l)).2 (fun hmem => absurd (hl key hmem) (by omega))
      rw [alookup_append_of_none key _ _ hnone]
      simp [alookup]
    · by_cases h2 : key < k
      · simp only [h1, if_false, h2, if_true]
        rcases hv : alookup key (inorder l) with _ | w
        · rw [alookup_append_of_none key _ _ hv, ihl bl, hv]
          have hnr : alookup key (inorder r) = none :=
            (alookup_eq_none key (inorder r)).2 (fun hmem => absurd (hr key hmem) (by omega))
          simp [alookup, h1, hnr]
        · rw [alookup_append_of_some key _ _ w hv, ihl bl, hv]
      · simp only [h1, if_false, h2, if_false]
        have hnone : alookup key (inorder l) = none :=
          (alookup_eq_none key (inorder l)).2
            (fun hmem => absurd (hl key hmem) (by omega))
        rw [alookup_append_of_none key _ _ hnone, ihr br]
        simp [alookup, h1]

/-- Effect of the plain BST insert-or-update on association lookups over the
in-order traversal: the inserted key now maps to the new value, all other
keys are untouched. -/
theorem alookup_inorder_ins (key value key' : Int) (t : SplayTree) (h : BST t) :
    alookup key' (inorder (ins key value t)) =
      if key' = key then some value else alookup key' (inorder t) := by
  induction t with
  | nil =>
    by_cases hk : key' = key
    · simp [ins, inorder, alookup, hk]
    · simp [ins, inorder, alookup, hk]
  | node l k v r ihl ihr =>
    rcases h with ⟨hl, hr, bl, br⟩
    by_cases h1 : key < k
    · rw [ins]
      simp only [h1, if_true, inorder]
      by_cases hk : key' = key
      · subst hk
        have : alookup key' (inorder (ins key' value l)) = some value := by
          rw [ihl bl]; simp
        rw [alookup_append_of_some key' _ _ value this]
        simp
      · rcases hv : alookup key' (inorder l) with _ | w
        · have : alookup key' (inorder (ins key value l)) = none := by
            rw [ihl bl, if_neg hk, hv]
          rw [alookup_append_of_none key' _ _ this,
            alookup_append_of_none key' _ _ hv]
          simp [hk]
        · have : alookup key' (inorder (ins key value l)) = some w := by
            rw [ihl bl, if_neg hk, hv]
          rw [alookup_append_of_some key' _ _ w this,
            alookup_append_of_some key' _ _ w hv]
          simp [hk]
    · by_cases h2 : key > k
      · rw [ins]
        simp only [h1, h2, if_false, if_true, inorder]
        by_cases hk : key' = key
        · subst hk
          have hnone : alookup key' (inorder l) = none :=
            (alookup_eq_none key' (inorder l)).2
              (fun hmem => absurd (hl key' hmem) (by omega))
          rw [alookup_append_of_none key' _ _ hnone,
            alookup_append_of_none key' _ _ hnone]
          have hkk : ¬ key' = k := by omega
          simp only [alookup, hkk, if_false, if_neg hkk]
          rw [ihr br]
          simp
        · rcases hv : alookup key' (inorder l) with _ | w
          · rw [alookup_append_of_none key' _ _ hv,
              alookup_append_of_none key' _ _ hv]
            by_cases hkk : key' = k
            · simp only [alookup, hkk, if_pos rfl, if_true]
              rw [if_neg (by omega : ¬ (k : Int) = key)]
            · simp only [alookup, hkk, if_false, if_neg hkk]
              rw [ihr br, if_neg hk]
          · rw [alookup_append_of_some key' _ _ w hv,
              alookup_append_of_some key' _ _ w hv]
            simp [hk]
      · have hkeq : key = k := by omega
        subst hkeq
        rw [ins]
        simp only [lt_irrefl, gt_iff_lt, if_false, inorder]
        by_cases hk : key' = key
        · subst hk
          have hnone : alookup key' (inorder l) = none :=
            (alookup_eq_none key' (inorder l)).2
              (fun hmem => absurd (hl key' hmem) (by omega))
          rw [alookup_append_of_none key' _ _ hnone,
            alookup_append_of_none key' _ _ hnone]
          simp [alookup]
        · rcases hv : alookup key' (inorder l) with _ | w
          · rw [alookup_append_of_none key' _ _ hv,
              alookup_append_of_none key' _ _ hv]
            simp [alookup, hk]
          · rw [alookup_append_of_some key' _ _ w hv,
              alookup_append_of_some key' _ _ w hv]
            simp [hk]

/-! ## Top-level properties of `search` and `insert` -/

theorem search_fst (t : SplayTree) (key : Int) :
    (t.search key).1 = treeLookup key t :=
  searchLoop_fst key t []

theorem search_inorder (t : SplayTree) (key : Int) :
    inorder (t.search key).2 = inorder t :=
  inorder_searchLoop key t []

theorem insert_inorder (t : SplayTree) (key value : Int) :
    inorder (t.insert key value) = inorder (ins key value t) :=
  inorder_insertLoop key value t []

theorem keysOf_search (t : SplayTree) (key : Int) :
    keysOf (t.search key).2 = keysOf t := by
  simp [keysOf, search_inorder]

theorem bst_search (t : SplayTree) (key : Int) (h : BST t) : BST (t.search key).2 := by
  rw [bst_iff_sorted, keysOf_search]
  exact (bst_iff_sorted t).1 h

theorem bst_insert (t : SplayTree) (key value : Int) (h : BST t) :
    BST (t.insert key value) := by
  rw [bst_iff_sorted]
  have : keysOf (t.insert key value) = keysOf (ins key value t) := by
    simp [keysOf, insert_inorder]
  rw [this]
  exact (bst_iff_sorted _).1 (bst_ins key value t h)

theorem bst_applyOp (t : SplayTree) (op : Op) (h : BST t) : BST (applyOp t op) := by
  cases op with
  | ins k v => exact bst_insert t k v h
  | search k => exact bst_search t k h

theorem bst_applyOps (ops : List Op) : ∀ t : SplayTree, BST t → BST (applyOps t ops) := by
  induction ops with
  | nil => intro t h; exact h
  | cons op ops ih =>
    intro t h
    exact ih (applyOp t op) (bst_applyOp t op h)

/-- C1: For every sequence of insert and search operations on a SplayCache
starting from the empty tree, the in-order traversal of the resulting tree
yields strictly increasing keys: every rotation, splay, search and insert
preserves the BST ordering invariant. -/
theorem splay_bst_invariant (ops : List Op) :
    List.Sorted (· < ·) (keysOf (applyOps SplayTree.nil ops)) :=
  (bst_iff_sorted _).1 (bst_applyOps ops SplayTree.nil trivial)

/-- C2: for a key `k` present in a well-ordered splay tree, `search k` finds
it and leaves its node at the root; `insert k v` always leaves the node with
key `k` (and value `v`) at the root.  In both cases the resulting tree is
non-empty.  (The splay loop is a total function here — structural recursion
on the path — so its termination is part of the definition.) -/
theorem root_after_access (t : SplayTree) (k v : Int) (hbst : BST t)
    (hmem : k ∈ keysOf t) :
    ((t.search k).2 ≠ SplayTree.nil ∧ rootKey (t.search k).2 = some k) ∧
    (t.insert k v ≠ SplayTree.nil ∧ rootKey (t.insert k v) = some k) := by
  constructor
  · have hsome : (alookup k (inorder t)).isSome = true :=
      (alookup_isSome k (inorder t)).2 hmem
    obtain ⟨w, hw⟩ := Option.isSome_iff_exists.1 hsome
    have hfst : (t.search k).1 = some w := by
      rw [search_fst, treeLookup_eq_alookup k t hbst, hw]
    obtain ⟨l', r', hshape⟩ := searchLoop_found_shape k t [] w hfst
    have hshape' : (t.search k).2 = SplayTree.node l' k w r' := hshape
    rw [hshape']
    exact ⟨SplayTree.noConfusion, rfl⟩
  · obtain ⟨l', r', hshape⟩ := insertLoop_shape k v t []
    have hshape' : t.insert k v = SplayTree.node l' k v r' := hshape
    rw [hshape']
    exact ⟨SplayTree.noConfusion, rfl⟩

/-- Witness for `root_after_access` at a concrete tree. -/
theorem root_after_access_witness :
    ((((((SplayTree.nil.insert 5 50).insert 3 30).insert 8 80).search 3).2 ≠ SplayTree.nil ∧
      rootKey (((((SplayTree.nil.insert 5 50).insert 3 30).insert 8 80).search 3).2) = some 3) ∧
     ((((SplayTree.nil.insert 5 50).insert 3 30).insert 8 80).insert 3 31 ≠ SplayTree.nil ∧
      rootKey ((((SplayTree.nil.insert 5 50).insert 3 30).insert 8 80).insert 3 31) = some 3)) :=
  root_after_access (((SplayTree.nil.insert 5 50).insert 3 30).insert 8 80) 3 31
    (by simp [BST, keysOf, inorder, SplayTree.insert, insertLoop, splay])
    (by simp [keysOf, inorder, SplayTree.insert, insertLoop, splay])

theorem applyOps_keeps_binding (k v : Int) :
    ∀ (ops : List Op) (t : SplayTree), BST t → alookup k (inorder t) = some v →
      (∀ v', Op.ins k v' ∉ ops) →
      BST (applyOps t ops) ∧ alookup k (inorder (applyOps t ops)) = some v := by
  intro ops
  induction ops with
  | nil => intro t hbst hba _; exact ⟨hbst, hba⟩
  | cons op ops ih =>
    intro t hbst hba hno
    have hno' : ∀ v', Op.ins k v' ∉ ops := by
      intro v' hmem
      exact hno v' (List.mem_cons_of_mem op hmem)
    have step : BST (applyOp t op) ∧ alookup k (inorder (applyOp t op)) = some v := by
      cases op with
      | ins k' v' =>
        have hkk : k' ≠ k := by
          intro h
          subst h
          exact hno v' (List.mem_cons_self _ _)
        refine ⟨bst_insert t k' v' hbst, ?_⟩
        show alookup k (inorder (t.insert k' v')) = some v
        rw [insert_inorder, alookup_inorder_ins k' v' k t hbst,
          if_neg (fun h => hkk h.symm)]
        exact hba
      | search k' =>
        refine ⟨bst_search t k' hbst, ?_⟩
        show alookup k (inorder (t.search k').2) = some v
        rw [search_inorder]
        exact hba
    exact ih (applyOp t op) step.1 step.2 hno'

/-- C3: after `insert k v`, a `search k` returns `v`, and keeps returning `v`
after any interleaved operations that do not insert at key `k`. -/
theorem insert_then_search (t : SplayTree) (k v : Int) (hbst : BST t)
    (ops : List Op) (hno : ∀ v', Op.ins k v' ∉ ops) :
    ((applyOps (t.insert k v) ops).search k).1 = some v := by
  have hb : alookup k (inorder (t.insert k v)) = some v := by
    rw [insert_inorder, alookup_inorder_ins k v k t hbst, if_pos rfl]
  obtain ⟨hbst', hba'⟩ :=
    applyOps_keeps_binding k v ops (t.insert k v) (bst_insert t k v hbst) hb hno
  rw [search_fst, treeLookup_eq_alookup k _ hbst']
  exact hba'

/-- Witness for `insert_then_search`: insert 5, then interleave an insert of
another key and two searches (one hit, one miss). -/
theorem insert_then_search_witness :
    ((applyOps (SplayTree.nil.insert 5 55) [Op.ins 2 22, Op.search 5, Op.search 9]).search 5).1
      = some 55 :=
  insert_then_search SplayTree.nil 5 55 trivial [Op.ins 2 22, Op.search 5, Op.search 9]
    (by intro v' h; simp [List.mem_cons] at h)

/-- C8 (frame effect of misses): a `get` on a key absent from the LRU cache
returns `none` and leaves the cache literally unchanged, and a `search` for a
key absent from a well-ordered splay tree reports `none` and leaves the
in-order list of `(key, value)` pairs unchanged (only the shape may move). -/
theorem miss_leaves_contents {K V : Type} [DecidableEq K] (c : LRUCache K V) (key : K)
    (hmiss : key ∉ c.cache.map Prod.fst)
    (t : SplayTree) (k : Int) (hbst : BST t) (hkm : k ∉ keysOf t) :
    c.get key = (none, c) ∧ (t.search k).1 = none ∧ inorder (t.search k).2 = inorder t := by
  refine ⟨?_, ?_, search_inorder t k⟩
  · rw [LRUCache.get, (alookup_eq_none key c.cache).2 hmiss]
  · rw [search_fst, treeLookup_eq_alookup k t hbst,
      (alookup_eq_none k (inorder t)).2 hkm]

/-- Witness for `miss_leaves_contents` at a concrete cache and tree. -/
theorem miss_leaves_contents_witness :
    (LRUCache.mk 3 [((1 : Nat), (10 : Nat)), (2, 20)]).get 7
        = (none, LRUCache.mk 3 [(1, 10), (2, 20)]) ∧
      (((SplayTree.nil.insert 5 50).insert 3 30).search 4).1 = none ∧
      inorder (((SplayTree.nil.insert 5 50).insert 3 30).search 4).2
        = inorder ((SplayTree.nil.insert 5 50).insert 3 30) :=
  miss_leaves_contents (LRUCache.mk 3 [(1, 10), (2, 20)]) 7 (by simp)
    ((SplayTree.nil.insert 5 50).insert 3 30) 4
    (by simp [BST, keysOf, inorder, SplayTree.insert, insertLoop, splay])
    (by simp [keysOf, inorder, SplayTree.insert, insertLoop, splay])

/-! ## LRU cache: lengths of the primitive list operations -/

theorem length_eraseKey_le {K V : Type} [DecidableEq K] (k : K) (l : List (K × V)) :
    (eraseKey k l).length ≤ l.length := by
  induction l with
  | nil => simp [eraseKey]
  | cons kv l ih =>
    by_cases h : kv.1 = k
    · simp [eraseKey, h]
    · simp only [eraseKey, h, if_false, List.length_cons]
      omega

theorem length_eraseKey_present {K V : Type} [DecidableEq K] (k : K) (l : List (K × V))
    (v : V) (h : alookup k l = some v) : (eraseKey k l).length + 1 = l.length := by
  induction l with
  | nil => exact absurd h (by simp [alookup])
  | cons kv l ih =>
    by_cases hk : k = kv.1
    · simp [eraseKey, hk.symm]
    · rw [alookup, if_neg hk] at h
      rw [eraseKey, if_neg (fun hh : kv.1 = k => hk hh.symm)]
      simp only [List.length_cons]
      have := ih h
      omega

theorem length_moveToEnd_le {K V : Type} [DecidableEq K] (k : K) (l : List (K × V)) :
    (moveToEnd k l).length ≤ l.length := by
  rw [moveToEnd]
  rcases h : alookup k l with _ | v
  · exact le_refl _
  · have := length_eraseKey_present k l v h
    simp only [List.length_append, List.length_cons, List.length_nil]
    omega

theorem length_setValue_le {K V : Type} [DecidableEq K] (k : K) (v : V) (l : List (K × V)) :
    (setValue k v l).length ≤ l.length + 1 := by
  induction l with
  | nil => simp [setValue]
  | cons kv l ih =>
    by_cases h : kv.1 = k
    · simp [setValue, h]
    · simp only [setValue, h, if_false, List.length_cons]
      omega

theorem setValue_absent {K V : Type} [DecidableEq K] (k : K) (v : V) (l : List (K × V))
    (h : alookup k l = none) : setValue k v l = l ++ [(k, v)] := by
  induction l with
  | nil => rfl
  | cons kv l ih =>
    by_cases hk : k = kv.1
    · rw [alookup, if_pos hk] at h
      exact Option.noConfusion h
    · rw [alookup, if_neg hk] at h
      rw [setValue, if_neg (fun hh => hk hh.symm), ih h, List.cons_append]

/-- After `put`, the number of entries grew by at most one before eviction. -/
theorem put_length_le {K V : Type} [DecidableEq K] (c : LRUCache K V) (key : K) (v : V)
    (h : (c.cache.length : Int) ≤ c.capacity) :
    ((c.put key v).cache.length : Int) ≤ c.capacity := by
  rw [LRUCache.put]
  set l1 := if (alookup key c.cache).isSome = true then moveToEnd key c.cache else c.cache with hl1
  have h1 : l1.length ≤ c.cache.length := by
    rw [hl1]
    split
    · exact length_moveToEnd_le key c.cache
    · exact le_refl _
  have h2 : (setValue key v l1).length ≤ c.cache.length + 1 :=
    le_trans (length_setValue_le key v l1) (by omega)
  by_cases hgt : ((setValue key v l1).length : Int) > c.capacity
  · simp only [hgt, if_true]
    rw [List.length_tail]
    omega
  · simp only [hgt, if_false]
    omega

theorem get_length_le {K V : Type} [DecidableEq K] (c : LRUCache K V) (key : K) :
    ((c.get key).2).cache.length ≤ c.cache.length := by
  rw [LRUCache.get]
  rcases h : alookup key c.cache with _ | v
  · exact le_refl _
  · simpa using length_moveToEnd_le key c.cache

theorem foldl_erase_length_le {K V : Type} [DecidableEq K] (ks : List K) :
    ∀ l : List (K × V), (ks.foldl (fun l k => eraseKey k l) l).length ≤ l.length := by
  induction ks with
  | nil => intro l; exact le_refl _
  | cons k ks ih =>
    intro l
    exact le_trans (ih (eraseKey k l)) (length_eraseKey_le k l)

theorem invalidate_length_le {K V : Type} [DecidableEq K] (c : LRUCache K V)
    (cond : K → Bool) : (c.invalidate cond).cache.length ≤ c.cache.length :=
  foldl_erase_length_le _ c.cache

theorem applyLOp_capacity {K V : Type} [DecidableEq K] (c : LRUCache K V) (op : LOp K V) :
    (applyLOp c op).capacity = c.capacity := by
  cases op with
  | get k =>
    show ((c.get k).2).capacity = c.capacity
    rw [LRUCache.get]
    rcases alookup k c.cache with _ | v <;> rfl
  | put k v =>
    show (c.put k v).capacity = c.capacity
    rw [LRUCache.put]
  | invalidate cond => rfl

theorem applyLOp_length_le {K V : Type} [DecidableEq K] (c : LRUCache K V) (op : LOp K V)
    (h : (c.cache.length : Int) ≤ c.capacity) :
    ((applyLOp c op).cache.length : Int) ≤ c.capacity := by
  cases op with
  | get k =>
    have := get_length_le c k
    show (((c.get k).2).cache.length : Int) ≤ c.capacity
    omega
  | put k v => exact put_length_le c k v h
  | invalidate cond =>
    have := invalidate_length_le c cond
    show ((c.invalidate cond).cache.length : Int) ≤ c.capacity
    omega

theorem applyLOps_length_le {K V : Type} [DecidableEq K] (ops : List (LOp K V)) :
    ∀ c : LRUCache K V, (c.cache.length : Int) ≤ c.capacity →
      ((applyLOps c ops).cache.length : Int) ≤ (applyLOps c ops).capacity ∧
      (applyLOps c ops).capacity = c.capacity := by
  induction ops with
  | nil => intro c h; exact ⟨h, rfl⟩
  | cons op ops ih =>
    intro c h
    have hcap := applyLOp_capacity c op
    have hlen := applyLOp_length_le c op h
    have hstep := ih (applyLOp c op) (by rw [hcap]; exact hlen)
    have hcons : applyLOps c (op :: ops) = applyLOps (applyLOp c op) ops := rfl
    rw [hcons]
    exact ⟨hstep.1, by rw [hstep.2, hcap]⟩

/-- C4: starting from a `BoundedLRUCache` of positive capacity `C`, no
sequence of get/put/invalidate operations ever pushes the entry count above
`C`; and a `put` of a fresh key into a cache already holding `C` entries
evicts exactly the current least-recently-used entry (the head of the
recency list): the result is the old list with its head dropped and the new
binding appended, still of length `C`. -/
theorem lru_capacity_invariant {K V : Type} [DecidableEq K] (C : Nat) (hC : 0 < C)
    (ops : List (LOp K V)) (c : LRUCache K V) (key : K) (v : V)
    (hcap : c.capacity = (C : Int)) (hlen : c.cache.length = C)
    (hfresh : alookup key c.cache = none) :
    (applyLOps (LRUCache.init K V (C : Int)) ops).cache.length ≤ C ∧
    (c.put key v).cache = (c.cache ++ [(key, v)]).tail ∧
    (c.put key v).cache.length = C := by
  refine ⟨?_, ?_, ?_⟩
  · have h0 : (((LRUCache.init K V (C : Int)).cache.length : Int)) ≤
        (LRUCache.init K V (C : Int)).capacity := by
      simp [LRUCache.init]
    have := applyLOps_length_le ops (LRUCache.init K V (C : Int)) h0
    have hcap' : (applyLOps (LRUCache.init K V (C : Int)) ops).capacity = (C : Int) :=
      this.2
    have := this.1
    rw [hcap'] at this
    omega
  · rw [LRUCache.put]
    simp only [hfresh, Option.isSome_none, Bool.false_eq_true, if_false]
    rw [setValue_absent key v c.cache hfresh]
    rw [if_pos (by simp [hlen, hcap])]
  · rw [LRUCache.put]
    simp only [hfresh, Option.isSome_none, Bool.false_eq_true, if_false]
    rw [setValue_absent key v c.cache hfresh]
    rw [if_pos (by simp [hlen, hcap])]
    rw [List.length_tail]
    simp [hlen]

/-- Witness for `lru_capacity_invariant`: capacity 2, three puts; the put of
key 3 into the full cache [(1, 10), (2, 20)] drops key 1. -/
theorem lru_capacity_invariant_witness :
    (applyLOps (LRUCache.init Nat Nat (2 : Int))
        [LOp.put 1 10, LOp.put 2 20, LOp.put 3 30]).cache.length ≤ 2 ∧
    ((LRUCache.mk 2 [(1, 10), (2, 20)]).put 3 (30 : Nat)).cache
      = ([((1 : Nat), (10 : Nat)), (2, 20)] ++ [(3, 30)]).tail ∧
    ((LRUCache.mk 2 [(1, 10), (2, 20)]).put 3 (30 : Nat)).cache.length = 2 :=
  lru_capacity_invariant 2 (by decide) [LOp.put 1 10, LOp.put 2 20, LOp.put 3 30]
    (LRUCache.mk 2 [(1, 10), (2, 20)]) 3 30 rfl rfl (by simp [alookup])

/-! ## LRU cache: eviction order -/

theorem applyLOps_append {K V : Type} [DecidableEq K] (c : LRUCache K V)
    (a b : List (LOp K V)) : applyLOps c (a ++ b) = applyLOps (applyLOps c a) b := by
  rw [applyLOps, applyLOps, applyLOps, List.foldl_append]

/-- Putting a fresh key into a cache with spare room appends the binding at
the most-recently-used end and evicts nothing. -/
theorem put_fresh_no_evict {K V : Type} [DecidableEq K] (c : LRUCache K V) (key : K)
    (v : V) (hfresh : alookup key c.cache = none)
    (hroom : (c.cache.length : Int) + 1 ≤ c.capacity) :
    c.put key v = { c with cache := c.cache ++ [(key, v)] } := by
  rw [LRUCache.put]
  simp only [hfresh, Option.isSome_none, Bool.false_eq_true, if_false]
  rw [setValue_absent key v c.cache hfresh]
  rw [if_neg (by simp only [List.length_append, List.length_cons, List.length_nil]; omega)]

/-- Folding puts of pairwise-fresh keys into a cache with enough spare room
just appends the bindings in order. -/
theorem applyLOps_puts_fresh {K V : Type} [DecidableEq K] :
    ∀ (kvs : List (K × V)) (c : LRUCache K V),
      (((c.cache ++ kvs).map Prod.fst)).Nodup →
      ((c.cache.length : Int) + kvs.length) ≤ c.capacity →
      applyLOps c (kvs.map fun kv => LOp.put kv.1 kv.2) = { c with cache := c.cache ++ kvs } := by
  intro kvs
  induction kvs with
  | nil =>
    intro c _ _
    simp [applyLOps]
  | cons kv kvs ih =>
    intro c hnd hroom
    have hfresh : alookup kv.1 c.cache = none := by
      apply (alookup_eq_none kv.1 c.cache).2
      intro hmem
      have : ¬ ((c.cache ++ kv :: kvs).map Prod.fst).Nodup := by
        rw [List.map_append]
        rw [List.nodup_append]
        intro ⟨_, _, hdisj⟩
        exact hdisj hmem (by simp)
      exact this hnd
    have hstep : c.put kv.1 kv.2 = { c with cache := c.cache ++ [kv] } := by
      rw [put_fresh_no_evict c kv.1 kv.2 hfresh
        (by simp only [List.length_cons] at hroom; omega)]
    have hcons : applyLOps c ((kv :: kvs).map fun kv => LOp.put kv.1 kv.2)
        = applyLOps (c.put kv.1 kv.2) (kvs.map fun kv => LOp.put kv.1 kv.2) := rfl
    rw [hcons, hstep]
    rw [ih { c with cache := c.cache ++ [kv] }
      (by simpa using hnd)
      (by simp only [List.length_append, List.length_cons, List.length_nil,
        List.length_cons] at hroom ⊢; push_cast; omega)]
    simp

/-- C5: eviction targets exactly the least-recently-used entry.
First part: `C + 1` puts of pairwise-distinct keys into an empty cache of
capacity `C` leave exactly the `C` later bindings (in order); in particular
the first-inserted key is absent and every later key is present.
Second part: with capacity 2, after `put a`, `put b`, `get a`, `put c` the
cache holds exactly `a` and `c` — `b` was evicted because `get a` promoted
`a` to most-recently-used. -/
theorem lru_eviction_order {K V : Type} [DecidableEq K] (C : Nat) (hC : 0 < C)
    (kv0 : K × V) (rest : List (K × V)) (hlen : rest.length = C)
    (hnd : ((kv0 :: rest).map Prod.fst).Nodup)
    (a b c : K) (va vb vc : V) (hab : a ≠ b) (hac : a ≠ c) (hbc : b ≠ c) :
    ((applyLOps (LRUCache.init K V (C : Int))
        ((kv0 :: rest).map fun kv => LOp.put kv.1 kv.2)).cache = rest ∧
      alookup kv0.1 rest = none ∧
      ∀ kv ∈ rest, (alookup kv.1 rest).isSome = true) ∧
    (applyLOps (LRUCache.init K V 2)
        [LOp.put a va, LOp.put b vb, LOp.get a, LOp.put c vc]).cache = [(a, va), (c, vc)] := by
  constructor
  · refine ⟨?_, ?_, ?_⟩
    · rcases List.eq_nil_or_concat rest with hrest | ⟨mid, last, hrest⟩
      · rw [hrest] at hlen; simp at hlen; omega
      · rw [hrest, List.concat_eq_append] at hnd hlen ⊢
        have hsplit : (kv0 :: (mid ++ [last])).map (fun kv => LOp.put (K := K) (V := V) kv.1 kv.2)
            = ((kv0 :: mid).map fun kv => LOp.put kv.1 kv.2) ++ [LOp.put last.1 last.2] := by
          simp
        rw [hsplit, applyLOps_append]
        have hnd1 : (((LRUCache.init K V (C : Int)).cache ++ (kv0 :: mid)).map Prod.fst).Nodup := by
          simp only [LRUCache.init, List.nil_append]
          have : ((kv0 :: (mid ++ [last])).map Prod.fst).Nodup := hnd
          rw [show (kv0 :: (mid ++ [last])) = (kv0 :: mid) ++ [last] by simp] at this
          rw [List.map_append] at this
          exact (List.nodup_append.1 this).1
        have hroom1 : (((LRUCache.init K V (C : Int)).cache.length : Int) + (kv0 :: mid).length)
            ≤ (LRUCache.init K V (C : Int)).capacity := by
          simp only [LRUCache.init, List.length_nil, List.length_cons]
          simp only [List.length_append, List.length_cons, List.length_nil] at hlen
          push_cast
          omega
        rw [applyLOps_puts_fresh (kv0 :: mid) (LRUCache.init K V (C : Int)) hnd1 hroom1]
        have hfull : ({ LRUCache.init K V (C : Int) with
            cache := (LRUCache.init K V (C : Int)).cache ++ (kv0 :: mid) } : LRUCache K V)
            = LRUCache.mk (C : Int) (kv0 :: mid) := by
          simp [LRUCache.init]
        rw [hfull]
        have hfresh : alookup last.1 (kv0 :: mid) = none := by
          apply (alookup_eq_none last.1 (kv0 :: mid)).2
          intro hmem
          have := hnd
          rw [show (kv0 :: (mid ++ [last])) = (kv0 :: mid) ++ [last] by simp,
            List.map_append, List.nodup_append] at this
          exact this.2.2 hmem (by simp)
        show ((LRUCache.mk (C : Int) (kv0 :: mid)).put last.1 last.2).cache = mid ++ [last]
        rw [LRUCache.put]
        simp only [hfresh, Option.isSome_none, Bool.false_eq_true, if_false]
        rw [setValue_absent last.1 last.2 (kv0 :: mid) hfresh]
        have hcond : (((kv0 :: mid) ++ [(last.1, last.2)]).length : Int) > (C : Int) := by
          simp only [List.length_append, List.length_cons, List.length_nil] at hlen ⊢
          push_cast
          omega
        rw [if_pos hcond]
        simp
    · apply (alookup_eq_none kv0.1 rest).2
      have hnd' := hnd
      rw [List.map_cons] at hnd'
      exact (List.nodup_cons.1 hnd').1
    · intro kv hmem
      exact (alookup_isSome kv.1 rest).2 (List.mem_map_of_mem Prod.fst hmem)
  · simp only [applyLOps, List.foldl, applyLOp]
    rw [LRUCache.init]
    rw [put_fresh_no_evict _ a va (by simp [alookup]) (by simp)]
    rw [put_fresh_no_evict _ b vb (by simp [alookup, Ne.symm hab]) (by simp)]
    have hget : ((LRUCache.mk 2 ([] ++ [(a, va)] ++ [(b, vb)])).get a).2
        = LRUCache.mk 2 [(b, vb), (a, va)] := by
      rw [LRUCache.get]
      have : alookup a ([] ++ [(a, va)] ++ [(b, vb)]) = some va := by
        simp [alookup]
      rw [this]
      simp only []
      rw [moveToEnd]
      rw [this]
      simp [eraseKey, Ne.symm hab]
    rw [hget]
    rw [LRUCache.put]
    have hfresh : alookup c [(b, vb), (a, va)] = none := by
      simp [alookup, Ne.symm hbc, Ne.symm hac]
    simp only [hfresh, Option.isSome_none, Bool.false_eq_true, if_false]
    rw [setValue_absent c vc _ hfresh]
    rw [if_pos (by simp)]
    rfl

/-- Witness for `lru_eviction_order` with capacity 2, keys 1, 2, 3 and the
`a`, `b`, `c` scenario on keys 10, 20, 30. -/
theorem lru_eviction_order_witness :
    ((applyLOps (LRUCache.init Nat Nat (2 : Int))
        (([((1 : Nat), (11 : Nat)), (2, 22), (3, 33)]).map fun kv => LOp.put kv.1 kv.2)).cache
          = [(2, 22), (3, 33)] ∧
      alookup 1 [((2 : Nat), (22 : Nat)), (3, 33)] = none ∧
      ∀ kv ∈ [((2 : Nat), (22 : Nat)), (3, 33)], (alookup kv.1 [((2 : Nat), (22 : Nat)), (3, 33)]).isSome = true) ∧
    (applyLOps (LRUCache.init Nat Nat 2)
        [LOp.put 10 1, LOp.put 20 2, LOp.get 10, LOp.put 30 3]).cache = [(10, 1), (30, 3)] :=
  lru_eviction_order 2 (by decide) (1, 11) [(2, 22), (3, 33)] rfl (by decide)
    10 20 30 1 2 3 (by decide) (by decide) (by decide)

/-! ## LRU cache: predicate invalidation -/

theorem eraseKey_sublist {K V : Type} [DecidableEq K] (k : K) (l : List (K × V)) :
    (eraseKey k l).Sublist l := by
  induction l with
  | nil => simp [eraseKey]
  | cons kv l ih =>
    by_cases h : kv.1 = k
    · rw [eraseKey, if_pos h]
      exact (List.sublist_cons_self kv l)
    · rw [eraseKey, if_neg h]
      exact List.Sublist.cons₂ kv ih

theorem nodup_eraseKey {K V : Type} [DecidableEq K] (k : K) (l : List (K × V))
    (hnd : (l.map Prod.fst).Nodup) : ((eraseKey k l).map Prod.fst).Nodup :=
  List.Nodup.sublist (List.Sublist.map Prod.fst (eraseKey_sublist k l)) hnd

/-- With unique keys, deleting the binding of `k` makes `k` absent and leaves
every other key's lookup unchanged. -/
theorem alookup_eraseKey {K V : Type} [DecidableEq K] (key k : K) :
    ∀ l : List (K × V), (l.map Prod.fst).Nodup →
      alookup key (eraseKey k l) = if key = k then none else alookup key l := by
  intro l
  induction l with
  | nil => intro _; simp [eraseKey, alookup]
  | cons kv l ih =>
    intro hnd
    rw [List.map_cons, List.nodup_cons] at hnd
    by_cases h : kv.1 = k
    · rw [eraseKey, if_pos h]
      by_cases hk : key = k
      · rw [if_pos hk]
        apply (alookup_eq_none key l).2
        rw [hk, ← h]
        exact hnd.1
      · rw [if_neg hk, alookup, if_neg (fun hh => hk (hh.trans h))]
    · rw [eraseKey, if_neg h]
      by_cases hk : key = kv.1
      · rw [alookup, if_pos hk, alookup, if_pos hk,
          if_neg (fun hh : key = k => h (hk.symm.trans hh))]
      · rw [alookup, if_neg hk, alookup, if_neg hk]
        exact ih hnd.2

/-- Deleting a list of keys one by one makes exactly those keys absent. -/
theorem alookup_foldl_erase {K V : Type} [DecidableEq K] (key : K) :
    ∀ (ks : List K) (l : List (K × V)), (l.map Prod.fst).Nodup →
      alookup key (ks.foldl (fun l k => eraseKey k l) l)
        = if key ∈ ks then none else alookup key l := by
  intro ks
  induction ks with
  | nil => intro l _; simp
  | cons k ks ih =>
    intro l hnd
    have hfold : (k :: ks).foldl (fun l k => eraseKey k l) l
        = ks.foldl (fun l k => eraseKey k l) (eraseKey k l) := rfl
    rw [hfold, ih (eraseKey k l) (nodup_eraseKey k l hnd)]
    by_cases hks : key ∈ ks
    · rw [if_pos hks, if_pos (List.mem_cons_of_mem k hks)]
    · rw [if_neg hks, alookup_eraseKey key k l hnd]
      by_cases hk : key = k
      · rw [if_pos hk, if_pos (hk ▸ List.mem_cons_self k ks)]
      · rw [if_neg hk, if_neg (by simp [hk, hks])]

/-- C6: on a cache keyed by closed intervals, `invalidate` with the predicate
"interval contains the updated index `i`" (the predicate `update_with_cache`
builds) removes exactly the entries whose interval contains `i`: their keys
become absent, and every other key keeps exactly its previous binding. -/
theorem invalidate_exact {V : Type} (c : LRUCache (Nat × Nat) V)
    (hnd : (c.cache.map Prod.fst).Nodup) (i L R : Nat) :
    alookup (L, R) ((c.invalidate (invalidation_condition i)).cache)
      = if L ≤ i ∧ i ≤ R then none else alookup (L, R) c.cache := by
  show alookup (L, R)
      (((c.cache.map Prod.fst).filter (invalidation_condition i)).foldl
        (fun l k => eraseKey k l) c.cache)
    = if L ≤ i ∧ i ≤ R then none else alookup (L, R) c.cache
  rw [alookup_foldl_erase (L, R) _ c.cache hnd]
  by_cases hcond : L ≤ i ∧ i ≤ R
  · rw [if_pos hcond]
    by_cases hmem : (L, R) ∈ (c.cache.map Prod.fst).filter (invalidation_condition i)
    · rw [if_pos hmem]
    · rw [if_neg hmem]
      apply (alookup_eq_none (L, R) c.cache).2
      intro hin
      exact hmem (List.mem_filter.2 ⟨hin, by
        simp [invalidation_condition, hcond.1, hcond.2]⟩)
  · rw [if_neg hcond]
    rw [if_neg (fun hmem => hcond (by
      have := (List.mem_filter.1 hmem).2
      simpa [invalidation_condition] using this))]

/-- Witness for `invalidate_exact`: the entry keyed (0, 5) is removed by an
update at index 2. -/
theorem invalidate_exact_witness :
    alookup ((0 : Nat), (5 : Nat))
        (((LRUCache.mk 10 [((0, 5), (15 : Nat)), ((6, 9), 30)]).invalidate
          (invalidation_condition 2)).cache)
      = if 0 ≤ 2 ∧ 2 ≤ 5 then none
        else alookup (0, 5) [(((0 : Nat), (5 : Nat)), (15 : Nat)), ((6, 9), 30)] :=
  invalidate_exact (LRUCache.mk 10 [((0, 5), 15), ((6, 9), 30)]) (by decide) 2 0 5

/-! ## The constructor performs no capacity validation -/

/-- Counterexample to C7: constructing with capacity 0 is not rejected — it
yields an ordinary cache value on which operations are defined. -/
theorem lru_init_accepts_zero_capacity :
    (LRUCache.init Nat Nat 0).capacity = 0 ∧ (LRUCache.init Nat Nat 0).cache = [] ∧
    ((LRUCache.init Nat Nat 0).put 1 2).cache = [] := by
  refine ⟨rfl, rfl, ?_⟩
  rw [LRUCache.put]
  simp [LRUCache.init, alookup, setValue]

/-- C7 (amended): the constructor accepts any capacity, including
non-positive ones, without validation; the resulting cache still has defined
structural behavior — with capacity `≤ 0`, a `put` into the empty cache
immediately evicts the new entry, leaving the cache empty. -/
theorem lru_init_no_validation (cap : Int) (hcap : cap ≤ 0) (k v : Nat) :
    (LRUCache.init Nat Nat cap).capacity = cap ∧
    (LRUCache.init Nat Nat cap).cache = [] ∧
    ((LRUCache.init Nat Nat cap).put k v).cache = [] := by
  refine ⟨rfl, rfl, ?_⟩
  rw [LRUCache.put]
  have h1 : alookup k (LRUCache.init Nat Nat cap).cache = none := rfl
  simp only [h1, Option.isSome_none, Bool.false_eq_true, if_false]
  have h2 : setValue k v (LRUCache.init Nat Nat cap).cache = [(k, v)] := rfl
  rw [h2, if_pos (by simp [LRUCache.init]; omega)]
  rfl

/-- Witness for `lru_init_no_validation` at capacity 0. -/
theorem lru_init_no_validation_witness :
    (LRUCache.init Nat Nat 0).capacity = 0 ∧
    (LRUCache.init Nat Nat 0).cache = [] ∧
    ((LRUCache.init Nat Nat 0).put 5 6).cache = [] :=
  lru_init_no_validation 0 (by decide) 5 6

/-! ## End-to-end Fibonacci through both backends -/

/-- C9: `compute(10) = 55` through both backends, and both insert exactly the
11 distinct keys 0..10, each exactly once: the splay backend's insert log is
a permutation of 0..10 (as integers), and the LRU backend's memo — to which a
binding is prepended exactly once per miss — ends with keys forming a
permutation of 0..10. -/
theorem fibonacci_both_backends :
    (fibonacci_splay 10 SplayTree.nil).1 = 55 ∧
    ((fibonacci_splay 10 SplayTree.nil).2.2).Perm ((List.range 11).map Int.ofNat) ∧
    (fibonacci_lru 10 []).1 = 55 ∧
    ((fibonacci_lru 10 []).2.map Prod.fst).Perm (List.range 11) := by
  refine ⟨by decide, by decide, by decide, by decide⟩

/-! ## A cached `None` value is indistinguishable from a miss -/

/-- C10: when the value `None` is stored under a key, `get` observably
returns `None` — the same result the caller sees for an absent key — while
still promoting the entry to most-recently-used; consequently
`range_sum_with_cache` treats the entry as a miss: it recomputes the sum and
`put`s it, instead of returning the cached `None`. -/
theorem cached_none_is_miss (c : LRUCache (Nat × Nat) (Option Int)) (L R : Nat)
    (h : alookup (L, R) c.cache = some none) (array : List Int) :
    pyValue (c.get (L, R)).1 = none ∧
    ((c.get (L, R)).2).cache = moveToEnd (L, R) c.cache ∧
    range_sum_with_cache array L R c
      = (sumRange array L R, ((c.get (L, R)).2).put (L, R) (some (sumRange array L R))) := by
  have hget : c.get (L, R) = (some none, { c with cache := moveToEnd (L, R) c.cache }) := by
    rw [LRUCache.get, h]
  refine ⟨by rw [hget]; rfl, by rw [hget], ?_⟩
  rw [range_sum_with_cache]
  rw [hget]
  rfl

/-- Witness for `cached_none_is_miss` on a one-entry cache holding `None`
under the key (0, 1). -/
theorem cached_none_is_miss_witness :
    pyValue ((LRUCache.mk 5 [(((0 : Nat), (1 : Nat)), (none : Option Int))]).get (0, 1)).1 = none ∧
    (((LRUCache.mk 5 [(((0 : Nat), (1 : Nat)), (none : Option Int))]).get (0, 1)).2).cache
      = moveToEnd (0, 1) [(((0 : Nat), (1 : Nat)), (none : Option Int))] ∧
    range_sum_with_cache [3, 4] 0 1 (LRUCache.mk 5 [(((0 : Nat), (1 : Nat)), (none : Option Int))])
      = (sumRange [3, 4] 0 1,
        (((LRUCache.mk 5 [(((0 : Nat), (1 : Nat)), (none : Option Int))]).get (0, 1)).2).put (0, 1)
          (some (sumRange [3, 4] 0 1))) :=
  cached_none_is_miss (LRUCache.mk 5 [((0, 1), none)]) 0 1 rfl [3, 4]
